import Mathlib

/-!
Verification of the logical block-error estimators of the AG_QECC_HCF
repository against its specification.

The two Python source files are embedded shallowly: exact rationals stand in
for the floating-point probabilities (the programs only add, multiply and
divide probabilities), Python `range(a, b)` becomes `Finset.Ico a b`, a
raised `ValueError` becomes the `Except.error` branch of a result type, and
the ambient pseudorandom generator consumed by the Monte Carlo sampler
becomes an explicit stream `g : ℕ → ℚ` of uniform draws read off in program
order.
-/

/-- Embedding of `approximate_block_error` from `src/simulation.py`
(lines 23-48): reject `p` outside `[0, 1]`, set `p_xz = p / 2`, accumulate
`tail = Σ_{k=t+1}^{n} C(n,k) · p_xz^k · (1 − p_xz)^(n−k)` over the loop
`for k in range(t + 1, n + 1)`, and return `2 * tail`. -/
def approximate_block_error (n t : ℕ) (p : ℚ) : Except String ℚ :=
  if ¬ (0 ≤ p ∧ p ≤ 1) then
    Except.error "p must be a probability between 0 and 1"
  else
    let p_xz : ℚ := p / 2
    Except.ok (2 * ∑ k in Finset.Ico (t + 1) (n + 1),
      (n.choose k : ℚ) * p_xz ^ k * (1 - p_xz) ^ (n - k))

/-- Embedding of the per-channel error count
`sum(random.random() < p_xz for _ in range(n))` from `src/simulation.py`
(lines 70-71): the `n` uniform draws are the stream entries
`g start, g (start+1), …, g (start+n-1)`. -/
def countBelow (g : ℕ → ℚ) (q : ℚ) (start : ℕ) : ℕ → ℕ
  | 0 => 0
  | n + 1 => countBelow g q start n + (if g (start + n) < q then 1 else 0)

/-- Embedding of the sampling loop of `monte_carlo_block_error` from
`src/simulation.py` (lines 65-73): each trial consumes `n` draws for X
errors and then `n` draws for Z errors, and counts as a failure when either
per-channel count exceeds `t`. -/
def mcFailures (g : ℕ → ℚ) (q : ℚ) (n t : ℕ) : ℕ → ℕ → ℕ
  | 0, _ => 0
  | trials + 1, start =>
    let x_errors := countBelow g q start n
    let z_errors := countBelow g q (start + n) n
    (if t < x_errors ∨ t < z_errors then 1 else 0) + mcFailures g q n t trials (start + 2 * n)

/-- Embedding of `monte_carlo_block_error` from `src/simulation.py`
(lines 51-74): reject `trials ≤ 0`, set `p_xz = p / 2`, run the sampling
loop and return `failures / trials`. -/
def monte_carlo_block_error (g : ℕ → ℚ) (n t : ℕ) (p : ℚ) (trials : ℤ) : Except String ℚ :=
  if trials ≤ 0 then
    Except.error "trials must be positive"
  else
    let p_xz : ℚ := p / 2
    Except.ok ((mcFailures g p_xz n t trials.toNat 0 : ℚ) / (trials : ℚ))

/-- Embedding of `block_error` from `src/ag_qecc_simulation.py` (lines 6-19):
the same tail sum as `approximate_block_error`, with no validation of `p`. -/
def block_error (n t : ℕ) (p : ℚ) : ℚ :=
  let p_xz : ℚ := p / 2
  2 * ∑ k in Finset.Ico (t + 1) (n + 1),
    (n.choose k : ℚ) * p_xz ^ k * (1 - p_xz) ^ (n - k)

/-- Specification-side definition, phrased from the words of the spec: the
probability that a `Binomial(n, q)` draw exceeds `t`, as the sum of the
binomial weights of all outcomes `k ≤ n` with `k > t`. -/
def binomialTailGT (n : ℕ) (q : ℚ) (t : ℕ) : ℚ :=
  ∑ k in (Finset.range (n + 1)).filter (fun k => t < k),
    (n.choose k : ℚ) * q ^ k * (1 - q) ^ (n - k)

/-- Helper: the upper-tail sum of the `Binomial(n, q)` weights from index
`m` upward. -/
def tailFrom (n m : ℕ) (q : ℚ) : ℚ :=
  ∑ k in Finset.Ico m (n + 1), (n.choose k : ℚ) * q ^ k * (1 - q) ^ (n - k)

theorem block_error_def (n t : ℕ) (p : ℚ) :
    block_error n t p = 2 * tailFrom n (t + 1) (p / 2) := rfl

theorem approximate_block_error_of_valid (n t : ℕ) (p : ℚ) (hp0 : 0 ≤ p) (hp1 : p ≤ 1) :
    approximate_block_error n t p = Except.ok (2 * tailFrom n (t + 1) (p / 2)) := by
  unfold approximate_block_error
  rw [if_neg (not_not_intro ⟨hp0, hp1⟩)]
  rfl

theorem monte_carlo_block_error_of_pos (g : ℕ → ℚ) (n t : ℕ) (p : ℚ) (trials : ℤ)
    (h : ¬ trials ≤ 0) :
    monte_carlo_block_error g n t p trials
      = Except.ok ((mcFailures g (p / 2) n t trials.toNat 0 : ℚ) / (trials : ℚ)) := by
  unfold monte_carlo_block_error
  rw [if_neg h]

theorem binomialTailGT_eq_tailFrom (n t : ℕ) (q : ℚ) :
    binomialTailGT n q t = tailFrom n (t + 1) q := by
  unfold binomialTailGT tailFrom
  apply Finset.sum_congr _ (fun k _ => rfl)
  ext k
  simp only [Finset.mem_filter, Finset.mem_range, Finset.mem_Ico]
  omega

theorem binomWeight_nonneg (n k : ℕ) (q : ℚ) (h0 : 0 ≤ q) (h1 : q ≤ 1) :
    0 ≤ (n.choose k : ℚ) * q ^ k * (1 - q) ^ (n - k) := by
  have h2 : (0 : ℚ) ≤ 1 - q := by linarith
  exact mul_nonneg (mul_nonneg (Nat.cast_nonneg _) (pow_nonneg h0 k)) (pow_nonneg h2 (n - k))

theorem tailFrom_nonneg (n m : ℕ) (q : ℚ) (h0 : 0 ≤ q) (h1 : q ≤ 1) :
    0 ≤ tailFrom n m q := by
  unfold tailFrom
  exact Finset.sum_nonneg fun k _ => binomWeight_nonneg n k q h0 h1

theorem tailFrom_zero (n : ℕ) (q : ℚ) : tailFrom n 0 q = 1 := by
  unfold tailFrom
  have h : ∑ k in Finset.Ico 0 (n + 1), (n.choose k : ℚ) * q ^ k * (1 - q) ^ (n - k)
      = ∑ k in Finset.range (n + 1), q ^ k * (1 - q) ^ (n - k) * (n.choose k : ℚ) := by
    rw [← Finset.range_eq_Ico]
    exact Finset.sum_congr rfl fun k _ => by ring
  rw [h, ← add_pow]
  have h1 : q + (1 - q) = 1 := by ring
  rw [h1, one_pow]

theorem tailFrom_le_one (n m : ℕ) (q : ℚ) (h0 : 0 ≤ q) (h1 : q ≤ 1) :
    tailFrom n m q ≤ 1 := by
  have h : tailFrom n m q ≤ tailFrom n 0 q := by
    unfold tailFrom
    exact Finset.sum_le_sum_of_subset_of_nonneg
      (Finset.Ico_subset_Ico (Nat.zero_le m) le_rfl)
      (fun k _ _ => binomWeight_nonneg n k q h0 h1)
  calc tailFrom n m q ≤ tailFrom n 0 q := h
  _ = 1 := tailFrom_zero n q

theorem tailFrom_anti (n m : ℕ) (q : ℚ) (h0 : 0 ≤ q) (h1 : q ≤ 1) :
    tailFrom n (m + 1) q ≤ tailFrom n m q := by
  unfold tailFrom
  exact Finset.sum_le_sum_of_subset_of_nonneg
    (Finset.Ico_subset_Ico (Nat.le_succ m) le_rfl)
    (fun k _ _ => binomWeight_nonneg n k q h0 h1)

theorem tailFrom_succ_succ (n m : ℕ) (q : ℚ) :
    tailFrom (n + 1) (m + 1) q = q * tailFrom n m q + (1 - q) * tailFrom n (m + 1) q := by
  by_cases hm : m ≤ n
  · unfold tailFrom
    rw [Finset.mul_sum, Finset.mul_sum,
      Finset.sum_Ico_eq_sum_range, Finset.sum_Ico_eq_sum_range, Finset.sum_Ico_eq_sum_range]
    have e1 : n + 1 + 1 - (m + 1) = (n - m) + 1 := by omega
    have e2 : n + 1 - m = (n - m) + 1 := by omega
    have e3 : n + 1 - (m + 1) = n - m := by omega
    rw [e1, e2, e3, Finset.sum_range_succ, Finset.sum_range_succ]
    have hsum : ∀ i ∈ Finset.range (n - m),
        ((n + 1).choose (m + 1 + i) : ℚ) * q ^ (m + 1 + i) * (1 - q) ^ (n + 1 - (m + 1 + i))
          = q * ((n.choose (m + i) : ℚ) * q ^ (m + i) * (1 - q) ^ (n - (m + i)))
            + (1 - q) * ((n.choose (m + 1 + i) : ℚ) * q ^ (m + 1 + i) * (1 - q) ^ (n - (m + 1 + i))) := by
      intro i hi
      rw [Finset.mem_range] at hi
      have ha : n + 1 - (m + 1 + i) = (n - (m + 1 + i)) + 1 := by omega
      have hb : n - (m + i) = (n - (m + 1 + i)) + 1 := by omega
      have hc : m + 1 + i = (m + i) + 1 := by omega
      have hp : (n + 1).choose (m + 1 + i) = n.choose (m + i) + n.choose (m + 1 + i) := by
        rw [hc]
        exact Nat.choose_succ_succ n (m + i)
      rw [hp, ha, hb, hc]
      push_cast
      ring
    rw [Finset.sum_congr rfl hsum, Finset.sum_add_distrib]
    have hd : m + 1 + (n - m) = n + 1 := by omega
    have he : m + (n - m) = n := by omega
    rw [hd, he]
    simp only [Nat.choose_self, Nat.cast_one, Nat.sub_self, pow_zero, mul_one, one_mul]
    ring
  · unfold tailFrom
    rw [Finset.Ico_eq_empty (by omega : ¬ m + 1 < n + 1 + 1),
      Finset.Ico_eq_empty (by omega : ¬ m < n + 1),
      Finset.Ico_eq_empty (by omega : ¬ m + 1 < n + 1)]
    simp

theorem tailFrom_mono (n : ℕ) (q1 q2 : ℚ) (h0 : 0 ≤ q1) (h12 : q1 ≤ q2) (h2 : q2 ≤ 1) :
    ∀ m, tailFrom n m q1 ≤ tailFrom n m q2 := by
  induction n with
  | zero =>
    intro m
    cases m with
    | zero =>
      rw [tailFrom_zero, tailFrom_zero]
    | succ m =>
      unfold tailFrom
      rw [Finset.Ico_eq_empty (by omega : ¬ m + 1 < 0 + 1)]
      simp
  | succ n ih =>
    intro m
    cases m with
    | zero =>
      rw [tailFrom_zero, tailFrom_zero]
    | succ m =>
      rw [tailFrom_succ_succ, tailFrom_succ_succ]
      have hq1 : 0 ≤ q2 := le_trans h0 h12
      have hA := ih m
      have hB := ih (m + 1)
      have hAB : tailFrom n (m + 1) q1 ≤ tailFrom n m q2 :=
        le_trans hB (tailFrom_anti n m q2 hq1 h2)
      nlinarith [mul_nonneg h0 (sub_nonneg.mpr hA),
        mul_nonneg (sub_nonneg.mpr h2) (sub_nonneg.mpr hB),
        mul_nonneg (sub_nonneg.mpr h12) (sub_nonneg.mpr hAB)]

theorem mcFailures_le (g : ℕ → ℚ) (q : ℚ) (n t : ℕ) :
    ∀ trials start : ℕ, mcFailures g q n t trials start ≤ trials := by
  intro trials
  induction trials with
  | zero =>
    intro start
    exact Nat.le_refl _
  | succ k ih =>
    intro start
    have h := ih (start + 2 * n)
    simp only [mcFailures]
    split
    · omega
    · omega

theorem mcFailures_zero_qubits (g : ℕ → ℚ) (q : ℚ) (t : ℕ) :
    ∀ trials start : ℕ, mcFailures g q 0 t trials start = 0 := by
  intro trials
  induction trials with
  | zero =>
    intro start
    rfl
  | succ k ih =>
    intro start
    simp only [mcFailures, countBelow]
    rw [if_neg (by omega : ¬ (t < 0 ∨ t < 0))]
    simp [ih]

/-- C1: for every n ≥ 0, every t with 0 ≤ t ≤ n and every p ∈ [0, 1], the
analytic estimator returns exactly `2 · Σ_{k=t+1}^{n} C(n,k) (p/2)^k (1−p/2)^(n−k)`,
i.e. twice the probability that a `Binomial(n, p/2)` draw exceeds `t`. -/
theorem approximate_block_error_eq_twice_binomial_tail (n t : ℕ) (p : ℚ)
    (ht : t ≤ n) (hp0 : 0 ≤ p) (hp1 : p ≤ 1) :
    approximate_block_error n t p = Except.ok (2 * binomialTailGT n (p / 2) t) := by
  rw [approximate_block_error_of_valid n t p hp0 hp1, binomialTailGT_eq_tailFrom]

theorem approximate_block_error_eq_twice_binomial_tail_witness :
    approximate_block_error 2 1 (1/2) = Except.ok (2 * binomialTailGT 2 (1/2/2) 1) :=
  approximate_block_error_eq_twice_binomial_tail 2 1 (1/2) (by omega) (by norm_num) (by norm_num)

set_option maxRecDepth 4000 in
/-- C2 counterexample: at n = 25, t = 2, p = 1/20 the analytic estimator
succeeds, but the returned (doubled) value is strictly greater than 2.6e-2,
so it does not lie in the claimed interval [2.2e-2, 2.6e-2]. -/
theorem approximate_block_error_concrete_exceeds_claimed_range :
    approximate_block_error 25 2 (1/20) = Except.ok (2 * tailFrom 25 3 (1/20/2)) ∧
      (26 : ℚ)/1000 < 2 * tailFrom 25 3 (1/20/2) := by
  constructor
  · exact approximate_block_error_of_valid 25 2 (1/20) (by norm_num) (by norm_num)
  · norm_num [tailFrom, Finset.sum_Ico_eq_sum_range, Finset.sum_range_succ, Nat.choose]

set_option maxRecDepth 4000 in
/-- C2 (amended): at n = 25, t = 2, p = 1/20 the returned doubled value lies
in [4.4e-2, 5.2e-2]; the claimed interval [2.2e-2, 2.6e-2] holds for the
undoubled single-channel tail, i.e. for half the returned value. -/
theorem approximate_block_error_concrete_bounds :
    ∃ v : ℚ, approximate_block_error 25 2 (1/20) = Except.ok v ∧
      (44 : ℚ)/1000 ≤ v ∧ v ≤ (52 : ℚ)/1000 ∧
      (22 : ℚ)/1000 ≤ v / 2 ∧ v / 2 ≤ (26 : ℚ)/1000 := by
  have hv : tailFrom 25 3 (1/20/2)
      = 67088843648204529379463027367851656819 / 2814749767106560000000000000000000000000 := by
    norm_num [tailFrom, Finset.sum_Ico_eq_sum_range, Finset.sum_range_succ, Nat.choose]
  refine ⟨2 * tailFrom 25 3 (1/20/2),
    approximate_block_error_of_valid 25 2 (1/20) (by norm_num) (by norm_num), ?_, ?_, ?_, ?_⟩ <;>
    rw [hv] <;> norm_num

/-- C3 counterexample: at n = 2, t = 0, p = 1 the analytic estimator
succeeds and returns 3/2, which lies outside [0, 1]. -/
theorem analytic_value_can_exceed_one :
    approximate_block_error 2 0 1 = Except.ok (3/2) ∧ ¬ ((3 : ℚ)/2 ≤ 1) := by
  constructor
  · rw [approximate_block_error_of_valid 2 0 1 (by norm_num) (by norm_num)]
    congr 1
    norm_num [tailFrom, Finset.sum_Ico_eq_sum_range, Finset.sum_range_succ, Nat.choose]
  · norm_num

/-- C3 (amended): over the claimed input ranges the Monte Carlo estimator
returns a value in [0, 1], while the analytic estimator returns a value in
[0, 2] (twice a probability); the analytic value can exceed 1. -/
theorem estimators_range_bounds (g : ℕ → ℚ) (n t : ℕ) (p : ℚ) (trials : ℤ)
    (ht : t ≤ n) (hp0 : 0 ≤ p) (hp1 : p ≤ 1) (htr : 1 ≤ trials) :
    (∀ v : ℚ, approximate_block_error n t p = Except.ok v → 0 ≤ v ∧ v ≤ 2) ∧
    (∀ v : ℚ, monte_carlo_block_error g n t p trials = Except.ok v → 0 ≤ v ∧ v ≤ 1) := by
  constructor
  · intro v hv
    rw [approximate_block_error_of_valid n t p hp0 hp1] at hv
    injection hv with hv
    subst hv
    have hq0 : 0 ≤ p / 2 := by linarith
    have hq1 : p / 2 ≤ 1 := by linarith
    have h1 := tailFrom_nonneg n (t + 1) (p / 2) hq0 hq1
    have h2 := tailFrom_le_one n (t + 1) (p / 2) hq0 hq1
    constructor <;> linarith
  · intro v hv
    rw [monte_carlo_block_error_of_pos g n t p trials (by omega)] at hv
    injection hv with hv
    subst hv
    have htq : (0 : ℚ) < (trials : ℚ) := by
      have h : (0 : ℤ) < trials := by omega
      exact_mod_cast h
    constructor
    · exact div_nonneg (Nat.cast_nonneg _) (le_of_lt htq)
    · rw [div_le_one htq]
      have h := mcFailures_le g (p / 2) n t trials.toNat 0
      have h2 : ((trials.toNat : ℚ)) ≤ (trials : ℚ) := by
        have h3 : ((trials.toNat : ℤ)) = trials := Int.toNat_of_nonneg (by omega)
        exact_mod_cast le_of_eq h3
      calc ((mcFailures g (p / 2) n t trials.toNat 0 : ℕ) : ℚ)
          ≤ (trials.toNat : ℚ) := by exact_mod_cast h
      _ ≤ (trials : ℚ) := h2

theorem estimators_range_bounds_witness : (0 : ℚ) ≤ 0 ∧ (0 : ℚ) ≤ 1 :=
  (estimators_range_bounds (fun _ => 1) 0 0 1 1 (Nat.le_refl 0) (by norm_num) (by norm_num)
    (by omega)).2 0 (by
      rw [monte_carlo_block_error_of_pos (fun _ => 1) 0 0 1 1 (by omega)]
      rw [mcFailures_zero_qubits (fun _ => 1) (1/2) 0 (Int.toNat 1) 0]
      norm_num)

/-- C4: the two analytic implementations agree: for n ≥ 0, 0 ≤ t ≤ n and
p ∈ [0, 1], `block_error` from `ag_qecc_simulation.py` returns the same
value that `approximate_block_error` from `simulation.py` succeeds with. -/
theorem block_error_eq_approximate_block_error (n t : ℕ) (p : ℚ)
    (ht : t ≤ n) (hp0 : 0 ≤ p) (hp1 : p ≤ 1) :
    approximate_block_error n t p = Except.ok (block_error n t p) := by
  rw [approximate_block_error_of_valid n t p hp0 hp1, block_error_def]

theorem block_error_eq_approximate_block_error_witness :
    approximate_block_error 3 1 (1/3) = Except.ok (block_error 3 1 (1/3)) :=
  block_error_eq_approximate_block_error 3 1 (1/3) (by omega) (by norm_num) (by norm_num)

/-- C5: the analytic estimator fails exactly when p is outside [0, 1]: it
returns a value precisely when 0 ≤ p ≤ 1 and returns an error precisely when
p < 0 or p > 1, for every n and t. -/
theorem approximate_block_error_ok_iff (n t : ℕ) (p : ℚ) :
    ((∃ v : ℚ, approximate_block_error n t p = Except.ok v) ↔ (0 ≤ p ∧ p ≤ 1)) ∧
    ((∃ e : String, approximate_block_error n t p = Except.error e) ↔ (p < 0 ∨ 1 < p)) := by
  unfold approximate_block_error
  by_cases h : 0 ≤ p ∧ p ≤ 1
  · rw [if_neg (not_not_intro h)]
    constructor
    · exact ⟨fun _ => h, fun _ => ⟨_, rfl⟩⟩
    · constructor
      · rintro ⟨e, he⟩
        exact absurd he (by simp)
      · rintro (hc | hc) <;> rcases h with ⟨h1, h2⟩ <;> linarith
  · rw [if_pos h]
    have hd : p < 0 ∨ 1 < p := by
      rcases not_and_or.mp h with h1 | h1
      · exact Or.inl (not_le.mp h1)
      · exact Or.inr (not_le.mp h1)
    constructor
    · constructor
      · rintro ⟨v, hv⟩
        exact absurd hv (by simp)
      · intro hc
        exact absurd hc h
    · exact ⟨fun _ => hd, fun _ => ⟨_, rfl⟩⟩

/-- C6: the Monte Carlo estimator fails exactly when trials ≤ 0: it returns
a value precisely when trials ≥ 1 and returns an error precisely when
trials ≤ 0, for every n, t and every p (p is not validated). -/
theorem monte_carlo_block_error_ok_iff (g : ℕ → ℚ) (n t : ℕ) (p : ℚ) (trials : ℤ) :
    ((∃ v : ℚ, monte_carlo_block_error g n t p trials = Except.ok v) ↔ 1 ≤ trials) ∧
    ((∃ e : String, monte_carlo_block_error g n t p trials = Except.error e) ↔ trials ≤ 0) := by
  unfold monte_carlo_block_error
  by_cases h : trials ≤ 0
  · rw [if_pos h]
    constructor
    · constructor
      · rintro ⟨v, hv⟩
        exact absurd hv (by simp)
      · intro hc
        omega
    · exact ⟨fun _ => h, fun _ => ⟨_, rfl⟩⟩
  · rw [if_neg h]
    constructor
    · exact ⟨fun _ => by omega, fun _ => ⟨_, rfl⟩⟩
    · constructor
      · rintro ⟨e, he⟩
        exact absurd he (by simp)
      · intro hc
        exact absurd hc h

/-- C7: saturation: whenever t ≥ n (and p ∈ [0, 1]), the summation range
`t+1 … n` is empty and the analytic estimator returns exactly 0. -/
theorem approximate_block_error_saturation (n t : ℕ) (p : ℚ)
    (htn : n ≤ t) (hp0 : 0 ≤ p) (hp1 : p ≤ 1) :
    approximate_block_error n t p = Except.ok 0 := by
  rw [approximate_block_error_of_valid n t p hp0 hp1]
  congr 1
  unfold tailFrom
  rw [Finset.Ico_eq_empty (by omega : ¬ t + 1 < n + 1)]
  simp

theorem approximate_block_error_saturation_witness :
    approximate_block_error 2 5 (1/2) = Except.ok 0 :=
  approximate_block_error_saturation 2 5 (1/2) (by omega) (by norm_num) (by norm_num)

/-- C8: monotonicity in the noise rate: for fixed n and t with 0 ≤ t ≤ n and
0 ≤ p1 ≤ p2 ≤ 1, the value the analytic estimator succeeds with at p1 is at
most the value it succeeds with at p2. -/
theorem approximate_block_error_mono_in_p (n t : ℕ) (p1 p2 : ℚ)
    (ht : t ≤ n) (h0 : 0 ≤ p1) (h12 : p1 ≤ p2) (h2 : p2 ≤ 1) :
    ∀ v1 v2 : ℚ, approximate_block_error n t p1 = Except.ok v1 →
      approximate_block_error n t p2 = Except.ok v2 → v1 ≤ v2 := by
  intro v1 v2 hv1 hv2
  rw [approximate_block_error_of_valid n t p1 h0 (le_trans h12 h2)] at hv1
  rw [approximate_block_error_of_valid n t p2 (le_trans h0 h12) h2] at hv2
  injection hv1 with hv1
  injection hv2 with hv2
  subst hv1 hv2
  have h := tailFrom_mono n (p1 / 2) (p2 / 2) (by linarith) (by linarith) (by linarith) (t + 1)
  linarith

theorem approximate_block_error_mono_in_p_witness :
    2 * tailFrom 2 (1 + 1) (1/4/2) ≤ 2 * tailFrom 2 (1 + 1) (1/2/2) :=
  approximate_block_error_mono_in_p 2 1 (1/4) (1/2) (by omega) (by norm_num) (by norm_num)
    (by norm_num) (2 * tailFrom 2 (1 + 1) (1/4/2)) (2 * tailFrom 2 (1 + 1) (1/2/2))
    (approximate_block_error_of_valid 2 1 (1/4) (by norm_num) (by norm_num))
    (approximate_block_error_of_valid 2 1 (1/2) (by norm_num) (by norm_num))

/-- C9: for every stream of draws, every n ≥ 0, t ≥ 0, every p whatsoever
and every trials ≥ 1, the Monte Carlo estimator returns `failures / trials`
with `failures` an integer satisfying 0 ≤ failures ≤ trials, so the result
lies in [0, 1] unconditionally. -/
theorem monte_carlo_block_error_spec (g : ℕ → ℚ) (n t : ℕ) (p : ℚ) (trials : ℤ)
    (htr : 1 ≤ trials) :
    ∃ f : ℕ, (f : ℤ) ≤ trials ∧
      monte_carlo_block_error g n t p trials = Except.ok ((f : ℚ) / (trials : ℚ)) ∧
      0 ≤ ((f : ℚ) / (trials : ℚ)) ∧ ((f : ℚ) / (trials : ℚ)) ≤ 1 := by
  have htq : (0 : ℚ) < (trials : ℚ) := by
    have h : (0 : ℤ) < trials := by omega
    exact_mod_cast h
  have hle := mcFailures_le g (p / 2) n t trials.toNat 0
  refine ⟨mcFailures g (p / 2) n t trials.toNat 0, ?_, ?_, ?_, ?_⟩
  · omega
  · exact monte_carlo_block_error_of_pos g n t p trials (by omega)
  · exact div_nonneg (Nat.cast_nonneg _) (le_of_lt htq)
  · rw [div_le_one htq]
    have h2 : ((trials.toNat : ℚ)) ≤ (trials : ℚ) := by
      have h3 : ((trials.toNat : ℤ)) = trials := Int.toNat_of_nonneg (by omega)
      exact_mod_cast le_of_eq h3
    calc ((mcFailures g (p / 2) n t trials.toNat 0 : ℕ) : ℚ)
        ≤ (trials.toNat : ℚ) := by exact_mod_cast hle
    _ ≤ (trials : ℚ) := h2

theorem monte_carlo_block_error_spec_witness :
    ∃ f : ℕ, (f : ℤ) ≤ (2 : ℤ) ∧
      monte_carlo_block_error (fun _ => 1) 1 0 1 2 = Except.ok ((f : ℚ) / ((2 : ℤ) : ℚ)) ∧
      0 ≤ ((f : ℚ) / ((2 : ℤ) : ℚ)) ∧ ((f : ℚ) / ((2 : ℤ) : ℚ)) ≤ 1 :=
  monte_carlo_block_error_spec (fun _ => 1) 1 0 1 2 (by omega)

/-- C10: `block_error` in `ag_qecc_simulation.py` performs no input
validation: for every n, t and every rational p — inside or outside [0, 1] —
it totally returns the value of the same doubled binomial-tail formula. -/
theorem block_error_total_no_validation (n t : ℕ) (p : ℚ) :
    block_error n t p = 2 * binomialTailGT n (p / 2) t := by
  rw [block_error_def, binomialTailGT_eq_tailFrom]
